import Mathlib

/-!
Verification of the order-book core of `binance_signal_app`
(src/binance_signal_app/src/ws/binance.rs), shallowly embedded in Lean.

Modelling choices:
* Rust `f64` prices/quantities are modelled as exact rationals `ℚ`.
  `str::parse::<f64>()` is modelled by `parseDecimal`, a parser for finite
  decimal literals (optional sign, digits, optional fractional part,
  optional exponent); strings outside that grammar yield `none`, matching
  `parse().unwrap_or(0.0)` via `parseF64`.
* `BTreeMap<f64, f64>` is modelled as a strictly-ascending association list
  `List (ℚ × ℚ)` with `TreeMap.insert` keeping the order and replacing an
  existing key, exactly the observable behaviour of `BTreeMap::insert`.
* `Utc::now()` is modelled by an explicit `now : ℕ` argument; the tokio
  mutex is modelled by explicit state passing (the lock is held for the
  whole of `process_snapshot`, so each call is one atomic state update).
* The serde-decoded wire message is modelled at the JSON-value level by
  `Json` and `decodeDepthUpdate`, mirroring the derived `Deserialize` for
  `struct DepthUpdate`.
* The `start` reconnect loop is modelled as the step function `engineStep`
  over connection phases, each step returning the successor state together
  with the number of seconds slept before the next action
  (`tokio::time::sleep(Duration::from_secs(3))` appears only in the
  connect-error arm of the source).
-/

-- Batteries marks the `Rat` arithmetic operations `[irreducible]`, which
-- blocks `decide` on concrete rational computations; restore the default
-- reducibility for this development so concrete witnesses evaluate.
attribute [local semireducible] Rat.mul Rat.add Rat.sub Rat.inv
  Rat.ofScientific

set_option maxRecDepth 4000

namespace Binance

/-- A digit string to a natural number; `none` if empty or any non-digit. -/
def parseNatDigits (cs : List Char) : Option ℕ :=
  if cs = [] then none
  else cs.foldlM (fun acc c =>
    if c.isDigit then some (acc * 10 + (c.toNat - '0'.toNat)) else none) 0

/-- Strip an optional leading sign; `true` means negative. -/
def splitSign : List Char → Bool × List Char
  | '+' :: cs => (false, cs)
  | '-' :: cs => (true, cs)
  | cs => (false, cs)

/-- Split at the first character satisfying `sep`: the part before it and,
if found, the part after it. -/
def splitOnChar (sep : Char → Bool) : List Char → List Char × Option (List Char)
  | [] => ([], none)
  | c :: cs =>
    if sep c then ([], some cs)
    else
      let r := splitOnChar sep cs
      (c :: r.1, r.2)

/-- Integer-dot-fraction part of a decimal literal, as an exact rational. -/
def parseMantissa (cs : List Char) : Option ℚ :=
  let r := splitOnChar (· = '.') cs
  match r.2 with
  | none => (parseNatDigits r.1).map (fun n => (n : ℚ))
  | some fp =>
    if r.1 = [] ∧ fp = [] then none
    else do
      let i ← if r.1 = [] then pure 0 else parseNatDigits r.1
      let f ← if fp = [] then pure 0 else parseNatDigits fp
      pure ((i : ℚ) + (f : ℚ) / ((10 : ℚ) ^ fp.length))

/-- Model of Rust `str::parse::<f64>()` on finite decimal literals, with the
value read exactly (no rounding); strings outside the literal grammar give
`none`. -/
def parseDecimal (s : String) : Option ℚ := do
  let s1 := splitSign s.toList
  let r := splitOnChar (fun c => c = 'e' ∨ c = 'E') s1.2
  let m ← parseMantissa r.1
  let e : ℤ ←
    match r.2 with
    | none => pure 0
    | some ecs =>
      let es := splitSign ecs
      do
        let n ← parseNatDigits es.2
        pure (if es.1 then -(n : ℤ) else (n : ℤ))
  let v := m * (10 : ℚ) ^ e
  pure (if s1.1 then -v else v)

/-- Model of `price.parse::<f64>().unwrap_or(0.0)`. -/
def parseF64 (s : String) : ℚ := (parseDecimal s).getD 0

/-- Rust `struct DepthUpdate` (serde-decoded wire message): optional
`lastUpdateId`, and `bids`/`asks` as ordered lists of `[price, qty]`
string pairs. -/
structure DepthUpdate where
  lastUpdateId : Option ℕ
  bids : List (String × String)
  asks : List (String × String)
  deriving DecidableEq

-- `BTreeMap<f64, f64>` as a strictly-ascending association list.
namespace TreeMap

/-- `BTreeMap::insert`: keep ascending key order, overwrite an equal key. -/
def insert : List (ℚ × ℚ) → ℚ → ℚ → List (ℚ × ℚ)
  | [], k, v => [(k, v)]
  | (k', v') :: rest, k, v =>
    if k < k' then (k, v) :: (k', v') :: rest
    else if k = k' then (k, v) :: rest
    else (k', v') :: insert rest k v

/-- First-match key lookup (the observation function for map contents). -/
def lookup : List (ℚ × ℚ) → ℚ → Option ℚ
  | [], _ => none
  | (k, v) :: rest, p => if k = p then some v else lookup rest p

/-- The `BTreeMap` representation invariant: keys strictly ascending. -/
abbrev Sorted (m : List (ℚ × ℚ)) : Prop :=
  List.Pairwise (fun a b : ℚ × ℚ => a.1 < b.1) m

end TreeMap

/-- Rust `struct OrderbookSnapshot`. -/
structure OrderbookSnapshot where
  timestamp : ℕ
  bids : List (ℚ × ℚ)
  asks : List (ℚ × ℚ)
  deriving DecidableEq

/-- The snapshot built by `BinanceOrderbookWS::new` (both sides empty,
timestamp = creation time). -/
def newSnapshot (now : ℕ) : OrderbookSnapshot := ⟨now, [], []⟩

/-- Rust `struct BinanceOrderbookWS` (the `Arc<Mutex<_>>` is modelled by
holding the snapshot value directly). -/
structure BinanceOrderbookWS where
  symbol : String
  depth_level : ℕ
  orderbook : OrderbookSnapshot
  deriving DecidableEq

/-- `BinanceOrderbookWS::new`: lower-case the symbol, start empty. -/
def new (symbol : String) (depth_level : ℕ) (now : ℕ) : BinanceOrderbookWS :=
  ⟨symbol.toLower, depth_level, newSnapshot now⟩

/-- One iteration of the source's per-pair loop body:
parse both strings with `unwrap_or(0.0)` and insert only if `q > 0.0`. -/
def stepIns (m : List (ℚ × ℚ)) (pq : String × String) : List (ℚ × ℚ) :=
  if 0 < parseF64 pq.2 then TreeMap.insert m (parseF64 pq.1) (parseF64 pq.2)
  else m

/-- The side map built by the source's loop after `clear()`: fold the
per-pair body over the update's pairs starting from the empty map. -/
def buildSide (l : List (String × String)) : List (ℚ × ℚ) :=
  l.foldl stepIns []

/-- `BinanceOrderbookWS::process_snapshot`: clear both sides, repopulate
from the update, set the timestamp. -/
def process_snapshot (now : ℕ) (s : OrderbookSnapshot) (data : DepthUpdate) :
    OrderbookSnapshot :=
  ⟨now, buildSide data.bids, buildSide data.asks⟩

/-- `BinanceOrderbookWS::get_best_price`: last (maximum-key) bid entry and
first (minimum-key) ask entry; `None` unless both exist. -/
def get_best_price (s : OrderbookSnapshot) : Option ((ℚ × ℚ) × (ℚ × ℚ)) :=
  match s.bids.getLast?, s.asks.head? with
  | some bid, some ask => some (bid, ask)
  | _, _ => none

/-- The update's pairs as parsed (price, quantity) rationals, in order. -/
def parsedOf (l : List (String × String)) : List (ℚ × ℚ) :=
  l.map (fun pq => (parseF64 pq.1, parseF64 pq.2))

/-- The parsed pairs with strictly positive quantity, in order. -/
def positivesOf (l : List (String × String)) : List (ℚ × ℚ) :=
  (parsedOf l).filter (fun x => decide (0 < x.2))

/-- Value of the last pair carrying key `p`, if any. -/
def lastLookup : List (ℚ × ℚ) → ℚ → Option ℚ
  | [], _ => none
  | (k, v) :: rest, p =>
    match lastLookup rest p with
    | some q => some q
    | none => if k = p then some v else none

/-- First option if set, otherwise the second. -/
def orDefault : Option ℚ → Option ℚ → Option ℚ
  | some q, _ => some q
  | none, d => d

/-- A JSON value, the shape carried by a WebSocket text frame. -/
inductive Json where
  | null
  | bool (b : Bool)
  | num (q : ℚ)
  | str (s : String)
  | arr (elems : List Json)
  | obj (fields : List (String × Json))

/-- Object field access (first occurrence of the name). -/
def getField (fields : List (String × Json)) (name : String) : Option Json :=
  (fields.find? (fun f => f.1 == name)).map (fun f => f.2)

/-- serde decode of one `[String; 2]` element: exactly two strings. -/
def decodeStringPair : Json → Option (String × String)
  | .arr [.str a, .str b] => some (a, b)
  | _ => none

/-- serde decode of `Vec<[String; 2]>`. -/
def decodeSide : Json → Option (List (String × String))
  | .arr xs => xs.mapM decodeStringPair
  | _ => none

/-- serde decode of the `Option<u64>` field: absent or `null` is `none`;
a non-negative integral number in `u64` range is `some`; anything else is
a decode error. -/
def decodeOptU64 : Option Json → Option (Option ℕ)
  | none => some none
  | some .null => some none
  | some (.num q) =>
    if q.den = 1 ∧ 0 ≤ q.num ∧ q.num < 2 ^ 64 then some (some q.num.toNat)
    else none
  | some _ => none

/-- serde decode of `struct DepthUpdate` from a JSON value: `bids` and
`asks` are required arrays of two-string pairs; `lastUpdateId` optional. -/
def decodeDepthUpdate : Json → Option DepthUpdate
  | .obj fields => do
    let id ← decodeOptU64 (getField fields "lastUpdateId")
    let bs ← (getField fields "bids").bind decodeSide
    let sells ← (getField fields "asks").bind decodeSide
    pure ⟨id, bs, sells⟩
  | _ => none

/-- The body of the `start` receive loop for one text frame: apply the
update if it decodes, otherwise leave the state untouched. -/
def handleMessage (now : ℕ) (s : OrderbookSnapshot) (j : Json) :
    OrderbookSnapshot :=
  match decodeDepthUpdate j with
  | some u => process_snapshot now s u
  | none => s

/-- Connection phase of the `start` loop. -/
inductive Conn where
  | connecting
  | streaming
  deriving DecidableEq

/-- What the network hands the `start` loop next. -/
inductive NetEvent where
  | connOk
  | connErr
  | textMsg (j : Json)
  | otherMsg
  | streamClosed

/-- The engine's state: connection phase plus the shared snapshot. -/
structure EngineState where
  conn : Conn
  book : OrderbookSnapshot

/-- One step of the `start` loop. Returns the successor state and the
seconds slept before the next action: `connect_async` failure sleeps 3
(`Duration::from_secs(3)`), every other path proceeds immediately.
Event/phase pairs that cannot arise leave the state unchanged. -/
def engineStep (now : ℕ) (st : EngineState) (ev : NetEvent) : EngineState × ℕ :=
  match st.conn, ev with
  | .connecting, .connOk => (⟨.streaming, st.book⟩, 0)
  | .connecting, .connErr => (⟨.connecting, st.book⟩, 3)
  | .streaming, .textMsg j => (⟨.streaming, handleMessage now st.book j⟩, 0)
  | .streaming, .otherMsg => (st, 0)
  | .streaming, .streamClosed => (⟨.connecting, st.book⟩, 0)
  | _, _ => (st, 0)

/-- Apply a sequence of timestamped updates in order. -/
def applyAll (s : OrderbookSnapshot) (us : List (ℕ × DepthUpdate)) :
    OrderbookSnapshot :=
  us.foldl (fun st tu => process_snapshot tu.1 st tu.2) s

/-- Every stored quantity on both sides is strictly positive. -/
def allQtyPos (s : OrderbookSnapshot) : Prop :=
  (∀ x ∈ s.bids, 0 < x.2) ∧ ∀ x ∈ s.asks, 0 < x.2

/-- Membership after insert comes from the new pair or the old map. -/
theorem TreeMap.mem_insert_of {m : List (ℚ × ℚ)} {k v : ℚ} {x : ℚ × ℚ}
    (h : x ∈ TreeMap.insert m k v) : x = (k, v) ∨ x ∈ m := by
  induction m with
  | nil => simpa [TreeMap.insert] using h
  | cons a rest ih =>
    obtain ⟨k', v'⟩ := a
    simp only [TreeMap.insert] at h
    split at h
    · rcases List.mem_cons.mp h with h1 | h1
      · exact Or.inl h1
      · exact Or.inr h1
    · split at h
      · rcases List.mem_cons.mp h with h1 | h1
        · exact Or.inl h1
        · exact Or.inr (List.mem_cons_of_mem _ h1)
      · rcases List.mem_cons.mp h with h1 | h1
        · exact Or.inr (h1 ▸ List.mem_cons_self _ _)
        · rcases ih h1 with h2 | h2
          · exact Or.inl h2
          · exact Or.inr (List.mem_cons_of_mem _ h2)

/-- Insert keeps the keys strictly ascending. -/
theorem TreeMap.sorted_insert {m : List (ℚ × ℚ)} (k v : ℚ)
    (h : TreeMap.Sorted m) : TreeMap.Sorted (TreeMap.insert m k v) := by
  induction m with
  | nil => simp [TreeMap.insert]
  | cons a rest ih =>
    obtain ⟨k', v'⟩ := a
    obtain ⟨h1, h2⟩ := List.pairwise_cons.mp h
    simp only [TreeMap.insert]
    split
    · rename_i hk
      refine List.pairwise_cons.mpr ⟨?_, List.pairwise_cons.mpr ⟨h1, h2⟩⟩
      intro b hb
      rcases List.mem_cons.mp hb with rfl | hb'
      · exact hk
      · exact lt_trans hk (h1 b hb')
    · split
      · rename_i hlt heq
        exact List.pairwise_cons.mpr ⟨fun b hb => heq ▸ h1 b hb, h2⟩
      · rename_i hlt hne
        have hk : k' < k := by
          rcases lt_trichotomy k k' with h3 | h3 | h3
          · exact absurd h3 hlt
          · exact absurd h3 hne
          · exact h3
        refine List.pairwise_cons.mpr ⟨?_, ih h2⟩
        intro b hb
        rcases TreeMap.mem_insert_of hb with rfl | hb'
        · exact hk
        · exact h1 b hb'

/-- Looking up the just-inserted key returns the new value. -/
theorem TreeMap.lookup_insert_self (m : List (ℚ × ℚ)) (k v : ℚ) :
    TreeMap.lookup (TreeMap.insert m k v) k = some v := by
  induction m with
  | nil => simp [TreeMap.insert, TreeMap.lookup]
  | cons a rest ih =>
    obtain ⟨k', v'⟩ := a
    simp only [TreeMap.insert]
    split
    · simp [TreeMap.lookup]
    · split
      · simp [TreeMap.lookup]
      · rename_i hlt hne
        have hne' : k' ≠ k := fun he => hne he.symm
        simp [TreeMap.lookup, hne', ih]

/-- Looking up another key is unchanged by insert. -/
theorem TreeMap.lookup_insert_of_ne (m : List (ℚ × ℚ)) (k v p : ℚ)
    (hp : p ≠ k) :
    TreeMap.lookup (TreeMap.insert m k v) p = TreeMap.lookup m p := by
  have hk : ¬ k = p := fun he => hp he.symm
  induction m with
  | nil => simp [TreeMap.insert, TreeMap.lookup, hk]
  | cons a rest ih =>
    obtain ⟨k', v'⟩ := a
    simp only [TreeMap.insert]
    split
    · simp [TreeMap.lookup, hk]
    · split
      · rename_i hlt heq
        subst heq
        simp [TreeMap.lookup, hk]
      · simp only [TreeMap.lookup]
        split
        · rfl
        · exact ih

/-- A key is absent exactly when lookup fails. -/
theorem TreeMap.lookup_eq_none_iff (m : List (ℚ × ℚ)) (p : ℚ) :
    TreeMap.lookup m p = none ↔ p ∉ m.map Prod.fst := by
  induction m with
  | nil => simp [TreeMap.lookup]
  | cons a rest ih =>
    obtain ⟨k, v⟩ := a
    simp only [TreeMap.lookup, List.map_cons, List.mem_cons]
    split
    · rename_i hk
      simp [hk.symm]
    · rename_i hk
      have hk' : ¬ p = k := fun he => hk he.symm
      simp [ih, hk']

/-- On a sorted map, a stored pair is found by lookup. -/
theorem TreeMap.lookup_eq_some_of_mem {m : List (ℚ × ℚ)}
    (h : TreeMap.Sorted m) {p q : ℚ} (hm : (p, q) ∈ m) :
    TreeMap.lookup m p = some q := by
  induction m with
  | nil => cases hm
  | cons a rest ih =>
    obtain ⟨k, v⟩ := a
    obtain ⟨h1, h2⟩ := List.pairwise_cons.mp h
    rcases List.mem_cons.mp hm with he | hm'
    · obtain ⟨hp, hq⟩ := Prod.mk.injEq .. ▸ he
      simp [TreeMap.lookup, hp.symm, hq]
    · have hlt : k < p := h1 (p, q) hm'
      have hne : ¬ k = p := ne_of_lt hlt
      simp only [TreeMap.lookup, if_neg hne]
      exact ih h2 hm'

/-- A successful lookup exhibits a stored pair. -/
theorem TreeMap.mem_of_lookup {m : List (ℚ × ℚ)} {p q : ℚ}
    (h : TreeMap.lookup m p = some q) : (p, q) ∈ m := by
  induction m with
  | nil => cases h
  | cons a rest ih =>
    obtain ⟨k, v⟩ := a
    simp only [TreeMap.lookup] at h
    split at h
    · rename_i hk
      obtain rfl : v = q := Option.some.inj h
      exact hk ▸ List.mem_cons_self _ _
    · exact List.mem_cons_of_mem _ (ih h)

/-- Sorted maps have no duplicate keys. -/
theorem TreeMap.nodup_keys {m : List (ℚ × ℚ)} (h : TreeMap.Sorted m) :
    (m.map Prod.fst).Nodup := by
  rw [List.Nodup, List.pairwise_map]
  exact h.imp (fun hab => ne_of_lt hab)

/-- A list's last element, when it exists, is a member. -/
theorem mem_of_getLast {α : Type} :
    ∀ (l : List α) (x : α), l.getLast? = some x → x ∈ l := by
  intro l
  induction l with
  | nil => intro x hx; cases hx
  | cons a rest ih =>
    intro x hx
    cases rest with
    | nil =>
      simp only [List.getLast?_singleton, Option.some.injEq] at hx
      exact hx ▸ List.mem_singleton_self a
    | cons b r' =>
      have hx' : (b :: r').getLast? = some x := by
        simpa [List.getLast?_cons_cons] using hx
      exact List.mem_cons_of_mem _ (ih x hx')

/-- A nonempty list has a last element. -/
theorem exists_getLast {α : Type} :
    ∀ (l : List α), l ≠ [] → ∃ x, l.getLast? = some x := by
  intro l
  induction l with
  | nil => intro h; exact absurd rfl h
  | cons a rest ih =>
    intro _
    cases rest with
    | nil => exact ⟨a, List.getLast?_singleton a⟩
    | cons b r' =>
      obtain ⟨x, hx⟩ := ih (by simp)
      exact ⟨x, by simpa [List.getLast?_cons_cons] using hx⟩

/-- On a sorted map, the last entry carries the maximum key. -/
theorem TreeMap.getLast_le :
    ∀ (m : List (ℚ × ℚ)), TreeMap.Sorted m → ∀ x : ℚ × ℚ,
      m.getLast? = some x → ∀ y ∈ m, y.1 ≤ x.1 := by
  intro m
  induction m with
  | nil => intro _ x hx; cases hx
  | cons a rest ih =>
    intro h x hx y hy
    obtain ⟨h1, h2⟩ := List.pairwise_cons.mp h
    cases rest with
    | nil =>
      simp only [List.getLast?_singleton, Option.some.injEq] at hx
      rcases List.mem_singleton.mp hy with rfl
      exact hx ▸ le_refl _
    | cons b r' =>
      have hx' : (b :: r').getLast? = some x := by
        simpa [List.getLast?_cons_cons] using hx
      rcases List.mem_cons.mp hy with rfl | hy'
      · exact le_of_lt (h1 x (mem_of_getLast _ x hx'))
      · exact ih h2 x hx' y hy'

/-- On a sorted map, the first entry carries the minimum key. -/
theorem TreeMap.head_le {m : List (ℚ × ℚ)} (h : TreeMap.Sorted m)
    {x : ℚ × ℚ} (hx : m.head? = some x) : ∀ y ∈ m, x.1 ≤ y.1 := by
  cases m with
  | nil => cases hx
  | cons a rest =>
    obtain rfl : a = x := Option.some.inj hx
    intro y hy
    rcases List.mem_cons.mp hy with rfl | hy'
    · exact le_refl _
    · exact le_of_lt ((List.pairwise_cons.mp h).1 y hy')

/-- The per-pair loop body keeps the map sorted. -/
theorem sorted_stepIns {m : List (ℚ × ℚ)} (h : TreeMap.Sorted m)
    (pq : String × String) : TreeMap.Sorted (stepIns m pq) := by
  simp only [stepIns]
  split
  · exact TreeMap.sorted_insert _ _ h
  · exact h

/-- The whole per-side loop keeps the map sorted. -/
theorem sorted_foldl :
    ∀ (l : List (String × String)) (m : List (ℚ × ℚ)),
      TreeMap.Sorted m → TreeMap.Sorted (l.foldl stepIns m) := by
  intro l
  induction l with
  | nil => intro m h; exact h
  | cons a rest ih =>
    intro m h
    exact ih (stepIns m a) (sorted_stepIns h a)

/-- The map built from an update side is sorted. -/
theorem sorted_buildSide (l : List (String × String)) :
    TreeMap.Sorted (buildSide l) :=
  sorted_foldl l [] List.Pairwise.nil

/-- The per-pair loop body only ever stores positive quantities. -/
theorem pos_stepIns {m : List (ℚ × ℚ)} (h : ∀ x ∈ m, 0 < x.2)
    (pq : String × String) : ∀ x ∈ stepIns m pq, 0 < x.2 := by
  intro x hx
  simp only [stepIns] at hx
  split at hx
  · rename_i hq
    rcases TreeMap.mem_insert_of hx with rfl | hm
    · exact hq
    · exact h x hm
  · exact h x hx

/-- The whole per-side loop only ever stores positive quantities. -/
theorem pos_foldl :
    ∀ (l : List (String × String)) (m : List (ℚ × ℚ)),
      (∀ x ∈ m, 0 < x.2) → ∀ x ∈ l.foldl stepIns m, 0 < x.2 := by
  intro l
  induction l with
  | nil => intro m h; exact h
  | cons a rest ih =>
    intro m h
    exact ih (stepIns m a) (pos_stepIns h a)

/-- Every quantity in a built side map is strictly positive. -/
theorem pos_buildSide (l : List (String × String)) :
    ∀ x ∈ buildSide l, 0 < x.2 :=
  pos_foldl l [] (by intro x hx; cases hx)

/-- Lookup through the per-side fold: the last positive occurrence wins,
falling back to the accumulator. -/
theorem lookup_foldl :
    ∀ (l : List (String × String)) (m : List (ℚ × ℚ)) (p : ℚ),
      TreeMap.lookup (l.foldl stepIns m) p =
        orDefault (lastLookup (positivesOf l) p) (TreeMap.lookup m p) := by
  intro l
  induction l with
  | nil =>
    intro m p
    simp [positivesOf, parsedOf, lastLookup, orDefault]
  | cons a rest ih =>
    intro m p
    rw [List.foldl_cons, ih]
    by_cases hq : 0 < parseF64 a.2
    · have hpos : positivesOf (a :: rest) =
          (parseF64 a.1, parseF64 a.2) :: positivesOf rest := by
        simp [positivesOf, parsedOf, hq]
      have hstep : stepIns m a =
          TreeMap.insert m (parseF64 a.1) (parseF64 a.2) := by
        simp [stepIns, hq]
      rw [hpos, hstep]
      simp only [lastLookup]
      cases hll : lastLookup (positivesOf rest) p with
      | some q => simp [orDefault]
      | none =>
        simp only [orDefault]
        by_cases hp : parseF64 a.1 = p
        · rw [if_pos hp, hp]
          exact TreeMap.lookup_insert_self m p (parseF64 a.2)
        · rw [if_neg hp]
          simp only [orDefault]
          exact TreeMap.lookup_insert_of_ne m _ _ p (fun he => hp he.symm)
    · have hpos : positivesOf (a :: rest) = positivesOf rest := by
        simp [positivesOf, parsedOf, hq]
      have hstep : stepIns m a = m := by
        simp [stepIns, hq]
      rw [hpos, hstep]

/-- Lookup in a built side map is the last positive occurrence in the
update's order. -/
theorem lookup_buildSide (l : List (String × String)) (p : ℚ) :
    TreeMap.lookup (buildSide l) p = lastLookup (positivesOf l) p := by
  rw [buildSide, lookup_foldl]
  cases lastLookup (positivesOf l) p with
  | some q => rfl
  | none => simp [TreeMap.lookup, orDefault]

/-- A key is absent from lastLookup exactly when no pair carries it. -/
theorem lastLookup_eq_none_iff :
    ∀ (l : List (ℚ × ℚ)) (p : ℚ),
      lastLookup l p = none ↔ p ∉ l.map Prod.fst := by
  intro l
  induction l with
  | nil => intro p; simp [lastLookup]
  | cons a rest ih =>
    intro p
    obtain ⟨k, v⟩ := a
    simp only [lastLookup, List.map_cons, List.mem_cons]
    cases hll : lastLookup rest p with
    | some q =>
      have hp : p ∈ rest.map Prod.fst := by
        by_contra hc
        rw [(ih p).mpr hc] at hll
        cases hll
      simp [hp]
    | none =>
      have hp : p ∉ rest.map Prod.fst := (ih p).mp hll
      by_cases hk : k = p
      · simp [hk]
      · have hk' : ¬ p = k := fun he => hk he.symm
        simp [hk, hk', hp]

/-- A successful lastLookup exhibits a pair of the list. -/
theorem mem_of_lastLookup :
    ∀ {l : List (ℚ × ℚ)} {p q : ℚ}, lastLookup l p = some q → (p, q) ∈ l := by
  intro l
  induction l with
  | nil => intro p q h; cases h
  | cons a rest ih =>
    intro p q h
    obtain ⟨k, v⟩ := a
    cases hll : lastLookup rest p with
    | some q' =>
      simp only [lastLookup, hll] at h
      obtain rfl : q' = q := Option.some.inj h
      exact List.mem_cons_of_mem _ (ih hll)
    | none =>
      simp only [lastLookup, hll] at h
      split at h
      · rename_i hk
        obtain rfl : v = q := Option.some.inj h
        exact hk ▸ List.mem_cons_self _ _
      · cases h

/-- With duplicate-free keys, membership determines lastLookup. -/
theorem lastLookup_of_nodup :
    ∀ (l : List (ℚ × ℚ)), (l.map Prod.fst).Nodup →
      ∀ (p q : ℚ), (p, q) ∈ l → lastLookup l p = some q := by
  intro l
  induction l with
  | nil => intro _ p q hm; cases hm
  | cons a rest ih =>
    intro hnd p q hm
    obtain ⟨k, v⟩ := a
    rw [List.map_cons, List.nodup_cons] at hnd
    obtain ⟨hk, hnd'⟩ := hnd
    rcases List.mem_cons.mp hm with he | hm'
    · obtain ⟨hp, hq⟩ := Prod.mk.injEq .. ▸ he
      subst hp; subst hq
      have hnone : lastLookup rest p = none :=
        (lastLookup_eq_none_iff rest p).mpr hk
      simp [lastLookup, hnone]
    · have hsome : lastLookup rest p = some q := ih hnd' p q hm'
      simp [lastLookup, hsome]

/-- The built map's key set is the update side's positive-pair key set. -/
theorem mem_keys_buildSide_iff (l : List (String × String)) (p : ℚ) :
    p ∈ (buildSide l).map Prod.fst ↔ p ∈ (positivesOf l).map Prod.fst := by
  rw [← not_iff_not, ← TreeMap.lookup_eq_none_iff, ← lastLookup_eq_none_iff,
    lookup_buildSide]

/-- A list's head, when it exists, is a member. -/
theorem mem_of_head {α : Type} (l : List α) (x : α) (h : l.head? = some x) :
    x ∈ l := by
  cases l with
  | nil => cases h
  | cons a t =>
    simp only [List.head?_cons] at h
    obtain rfl : a = x := Option.some.inj h
    exact List.mem_cons_self _ _

/-- C3: the positivity invariant — every quantity stored on either side is
strictly positive — holds for the snapshot made by `new`, is (re)established
by every `process_snapshot` from any prior state, and therefore holds in
every state reachable by a sequence of applies from a fresh snapshot. -/
theorem c3_positive_quantities_invariant :
    (∀ (sym : String) (d t : ℕ), allQtyPos (new sym d t).orderbook) ∧
    (∀ (now : ℕ) (s : OrderbookSnapshot) (U : DepthUpdate),
      allQtyPos (process_snapshot now s U)) ∧
    (∀ (t : ℕ) (us : List (ℕ × DepthUpdate)),
      allQtyPos (applyAll (newSnapshot t) us)) := by
  have hnew : ∀ t : ℕ, allQtyPos (newSnapshot t) := by
    intro t
    exact ⟨fun x hx => absurd hx (List.not_mem_nil x),
           fun x hx => absurd hx (List.not_mem_nil x)⟩
  have hstep : ∀ (now : ℕ) (s : OrderbookSnapshot) (U : DepthUpdate),
      allQtyPos (process_snapshot now s U) := by
    intro now s U
    exact ⟨pos_buildSide U.bids, pos_buildSide U.asks⟩
  refine ⟨fun sym d t => hnew t, hstep, ?_⟩
  intro t us
  have hall : ∀ (vs : List (ℕ × DepthUpdate)) (s : OrderbookSnapshot),
      allQtyPos s → allQtyPos (applyAll s vs) := by
    intro vs
    induction vs with
    | nil => intro s h; exact h
    | cons u rest ih =>
      intro s h
      exact ih (process_snapshot u.1 s u.2) (hstep u.1 s u.2)
  exact hall us (newSnapshot t) (hnew t)

/-- C4: whenever either side of a snapshot is empty — in particular right
after construction — `get_best_price` returns `none` rather than an error. -/
theorem c4_empty_side_gives_none (s : OrderbookSnapshot)
    (h : s.bids = [] ∨ s.asks = []) : get_best_price s = none := by
  rcases h with h | h
  · cases hA : s.asks.head? with
    | none => simp [get_best_price, h, hA]
    | some a => simp [get_best_price, h, hA]
  · cases hB : s.bids.getLast? with
    | none => simp [get_best_price, h, hB]
    | some b => simp [get_best_price, h, hB]

/-- C4 witness: the freshly constructed snapshot has an empty bid side and
`get_best_price` on it is `none`. -/
theorem c4_witness :
    (newSnapshot 0).bids = [] ∧ get_best_price (newSnapshot 0) = none :=
  ⟨rfl, c4_empty_side_gives_none (newSnapshot 0) (Or.inl rfl)⟩

/-- C7: applying the same update twice in a row leaves the observable state
(both side maps, and hence the best-price query) exactly as after the first
application, whatever the two wall-clock instants. -/
theorem c7_apply_idempotent (n1 n2 : ℕ) (s : OrderbookSnapshot)
    (U : DepthUpdate) :
    (process_snapshot n2 (process_snapshot n1 s U) U).bids =
      (process_snapshot n1 s U).bids ∧
    (process_snapshot n2 (process_snapshot n1 s U) U).asks =
      (process_snapshot n1 s U).asks ∧
    get_best_price (process_snapshot n2 (process_snapshot n1 s U) U) =
      get_best_price (process_snapshot n1 s U) :=
  ⟨rfl, rfl, rfl⟩

/-- C9: `process_snapshot` never reads the sequence id — two updates that
agree on bids and asks but differ in (or omit) `lastUpdateId` produce
identical snapshots from the same starting state. -/
theorem c9_sequence_id_unused (now : ℕ) (s : OrderbookSnapshot)
    (i j : Option ℕ) (bs sells : List (String × String)) :
    process_snapshot now s ⟨i, bs, sells⟩ =
      process_snapshot now s ⟨j, bs, sells⟩ :=
  rfl

/-- C10: after an apply, looking up any price on either side returns the
quantity of the last positive-quantity occurrence of that price in the
update's order (or nothing), and each side's keys are duplicate-free, so a
price repeated in the update ends up stored exactly once with the quantity
of its last positive occurrence. -/
theorem c10_last_occurrence_wins (now : ℕ) (s : OrderbookSnapshot)
    (U : DepthUpdate) (p : ℚ) :
    TreeMap.lookup ((process_snapshot now s U).bids) p =
      lastLookup (positivesOf U.bids) p ∧
    TreeMap.lookup ((process_snapshot now s U).asks) p =
      lastLookup (positivesOf U.asks) p ∧
    (((process_snapshot now s U).bids).map Prod.fst).Nodup ∧
    (((process_snapshot now s U).asks).map Prod.fst).Nodup :=
  ⟨lookup_buildSide U.bids p, lookup_buildSide U.asks p,
    TreeMap.nodup_keys (sorted_buildSide U.bids),
    TreeMap.nodup_keys (sorted_buildSide U.asks)⟩

/-- C8 counterexample: when the stream ends while streaming, the engine
goes back to connecting with a zero-second wait, not the 3-second backoff
the claim asserts for every failure path. -/
theorem c8_counterexample :
    (engineStep 0 ⟨Conn.streaming, newSnapshot 0⟩ NetEvent.streamClosed).2
      = 0 ∧
    ((engineStep 0 ⟨Conn.streaming, newSnapshot 0⟩ NetEvent.streamClosed).2
      = 3 → False) := by
  decide

/-- C8 (amended): a connection-establishment failure re-enters the
connecting phase after the fixed 3-second backoff, while stream exhaustion
re-enters it immediately with no delay; a successful connect starts
streaming; in all cases the engine continues (no fatal path). -/
theorem c8_reconnect_paths (now : ℕ) (b : OrderbookSnapshot) :
    engineStep now ⟨Conn.connecting, b⟩ NetEvent.connErr =
      (⟨Conn.connecting, b⟩, 3) ∧
    engineStep now ⟨Conn.streaming, b⟩ NetEvent.streamClosed =
      (⟨Conn.connecting, b⟩, 0) ∧
    engineStep now ⟨Conn.connecting, b⟩ NetEvent.connOk =
      (⟨Conn.streaming, b⟩, 0) :=
  ⟨rfl, rfl, rfl⟩

/-- C1 counterexample: with the bid price `1` stated twice with positive
quantities `1` then `2`, the pair `(1, 1)` is a positive-quantity bid of
the update yet is absent after the apply (the second occurrence replaced
it), so the bid map does not contain every positive pair of the update. -/
theorem c1_counterexample :
    ((1 : ℚ), (1 : ℚ)) ∈ positivesOf [("1", "1"), ("1", "2")] ∧
    ((1 : ℚ), (1 : ℚ)) ∉
      (process_snapshot 0 (newSnapshot 0)
        ⟨none, [("1", "1"), ("1", "2")], []⟩).bids := by
  decide

/-- C1 (amended): for an update whose positive-quantity bids have pairwise
distinct parsed prices (and likewise for asks), the bid map after an apply
from any prior state contains exactly the positive-quantity parsed bid
pairs of the update, each price with its exact quantity — prior entries
are discarded and no non-positive quantity is stored — and similarly for
the ask map. -/
theorem c1_full_replacement (now : ℕ) (s : OrderbookSnapshot)
    (U : DepthUpdate)
    (hb : ((positivesOf U.bids).map Prod.fst).Nodup)
    (ha : ((positivesOf U.asks).map Prod.fst).Nodup) (p q : ℚ) :
    ((p, q) ∈ (process_snapshot now s U).bids ↔ (p, q) ∈ positivesOf U.bids) ∧
    ((p, q) ∈ (process_snapshot now s U).asks ↔ (p, q) ∈ positivesOf U.asks)
    := by
  constructor
  · constructor
    · intro hm
      have hl : TreeMap.lookup (buildSide U.bids) p = some q :=
        TreeMap.lookup_eq_some_of_mem (sorted_buildSide U.bids) hm
      rw [lookup_buildSide] at hl
      exact mem_of_lastLookup hl
    · intro hm
      have hl : lastLookup (positivesOf U.bids) p = some q :=
        lastLookup_of_nodup _ hb p q hm
      rw [← lookup_buildSide] at hl
      exact TreeMap.mem_of_lookup hl
  · constructor
    · intro hm
      have hl : TreeMap.lookup (buildSide U.asks) p = some q :=
        TreeMap.lookup_eq_some_of_mem (sorted_buildSide U.asks) hm
      rw [lookup_buildSide] at hl
      exact mem_of_lastLookup hl
    · intro hm
      have hl : lastLookup (positivesOf U.asks) p = some q :=
        lastLookup_of_nodup _ ha p q hm
      rw [← lookup_buildSide] at hl
      exact TreeMap.mem_of_lookup hl

/-- C1 witness: a concrete duplicate-free update, showing the stored bid
pair is exactly the update's positive parsed pair. -/
theorem c1_witness :
    ((positivesOf [("1.5", "2")]).map Prod.fst).Nodup ∧
    (((3 : ℚ)/2, (2 : ℚ)) ∈
        (process_snapshot 0 (newSnapshot 0) ⟨none, [("1.5", "2")], []⟩).bids ↔
      ((3 : ℚ)/2, (2 : ℚ)) ∈ positivesOf [("1.5", "2")]) :=
  ⟨by decide,
    (c1_full_replacement 0 (newSnapshot 0) ⟨none, [("1.5", "2")], []⟩
      (by decide) (by decide) (3/2) 2).1⟩

/-- C2 counterexample: an update with one bid (of quantity zero) and one
ask — so both lists are nonempty — yields `none` from `get_best_price`,
not `some`, because the bid side stores nothing. -/
theorem c2_counterexample :
    (DepthUpdate.mk none [("1", "0")] [("2", "1")]).bids ≠ [] ∧
    (DepthUpdate.mk none [("1", "0")] [("2", "1")]).asks ≠ [] ∧
    get_best_price (process_snapshot 0 (newSnapshot 0)
      ⟨none, [("1", "0")], [("2", "1")]⟩) = none := by
  decide

/-- C2 (amended): for an update with at least one positive-quantity bid and
at least one positive-quantity ask, `get_best_price` after the apply is
`some`, its bid price is the maximum parsed price among the update's
positive-quantity bids, and its ask price is the minimum parsed price
among the update's positive-quantity asks. -/
theorem c2_best_prices (now : ℕ) (s : OrderbookSnapshot) (U : DepthUpdate)
    (hb : positivesOf U.bids ≠ []) (ha : positivesOf U.asks ≠ []) :
    ∃ B qb A qa,
      get_best_price (process_snapshot now s U) = some ((B, qb), (A, qa)) ∧
      B ∈ (positivesOf U.bids).map Prod.fst ∧
      (∀ p ∈ (positivesOf U.bids).map Prod.fst, p ≤ B) ∧
      A ∈ (positivesOf U.asks).map Prod.fst ∧
      (∀ p ∈ (positivesOf U.asks).map Prod.fst, A ≤ p) := by
  have hbkey : ∃ k, k ∈ (positivesOf U.bids).map Prod.fst := by
    cases hl : positivesOf U.bids with
    | nil => exact absurd hl hb
    | cons a t => exact ⟨a.1, by simp [hl]⟩
  have hakey : ∃ k, k ∈ (positivesOf U.asks).map Prod.fst := by
    cases hl : positivesOf U.asks with
    | nil => exact absurd hl ha
    | cons a t => exact ⟨a.1, by simp [hl]⟩
  have hbne : buildSide U.bids ≠ [] := by
    intro h0
    obtain ⟨k, hk⟩ := hbkey
    have := (mem_keys_buildSide_iff U.bids k).mpr hk
    rw [h0] at this
    cases this
  have hane : buildSide U.asks ≠ [] := by
    intro h0
    obtain ⟨k, hk⟩ := hakey
    have := (mem_keys_buildSide_iff U.asks k).mpr hk
    rw [h0] at this
    cases this
  obtain ⟨x, hxl⟩ := exists_getLast (buildSide U.bids) hbne
  have hyl : ∃ y, (buildSide U.asks).head? = some y := by
    cases hl : buildSide U.asks with
    | nil => exact absurd hl hane
    | cons a t => exact ⟨a, by simp [hl]⟩
  obtain ⟨y, hyl⟩ := hyl
  have hxm : x ∈ buildSide U.bids := mem_of_getLast _ x hxl
  have hym : y ∈ buildSide U.asks := mem_of_head _ y hyl
  refine ⟨x.1, x.2, y.1, y.2, ?_, ?_, ?_, ?_, ?_⟩
  · show get_best_price ⟨now, buildSide U.bids, buildSide U.asks⟩ = _
    simp [get_best_price, hxl, hyl]
  · exact (mem_keys_buildSide_iff U.bids x.1).mp
      (List.mem_map_of_mem Prod.fst hxm)
  · intro p hp
    have hp' : p ∈ (buildSide U.bids).map Prod.fst :=
      (mem_keys_buildSide_iff U.bids p).mpr hp
    obtain ⟨z, hz, rfl⟩ := List.mem_map.mp hp'
    exact TreeMap.getLast_le (buildSide U.bids) (sorted_buildSide U.bids)
      x hxl z hz
  · exact (mem_keys_buildSide_iff U.asks y.1).mp
      (List.mem_map_of_mem Prod.fst hym)
  · intro p hp
    have hp' : p ∈ (buildSide U.asks).map Prod.fst :=
      (mem_keys_buildSide_iff U.asks p).mpr hp
    obtain ⟨z, hz, rfl⟩ := List.mem_map.mp hp'
    exact TreeMap.head_le (sorted_buildSide U.asks) hyl z hz

/-- C2 witness: the spec's concrete scenario — two bids and two asks, all
positive — where the best bid is 30100.10 and the best ask is 30101.20. -/
theorem c2_witness :
    positivesOf [("30100.10", "1.5"), ("30099.90", "0.5")] ≠ [] ∧
    (∃ B qb A qa,
      get_best_price (process_snapshot 0 (newSnapshot 0)
        ⟨some 42, [("30100.10", "1.5"), ("30099.90", "0.5")],
          [("30101.20", "0.8"), ("30102.00", "1.0")]⟩) =
        some ((B, qb), (A, qa)) ∧
      B ∈ (positivesOf [("30100.10", "1.5"), ("30099.90", "0.5")]).map
        Prod.fst ∧
      (∀ p ∈ (positivesOf [("30100.10", "1.5"), ("30099.90", "0.5")]).map
        Prod.fst, p ≤ B) ∧
      A ∈ (positivesOf [("30101.20", "0.8"), ("30102.00", "1.0")]).map
        Prod.fst ∧
      (∀ p ∈ (positivesOf [("30101.20", "0.8"), ("30102.00", "1.0")]).map
        Prod.fst, A ≤ p)) :=
  ⟨by decide,
    c2_best_prices 0 (newSnapshot 0)
      ⟨some 42, [("30100.10", "1.5"), ("30099.90", "0.5")],
        [("30101.20", "0.8"), ("30102.00", "1.0")]⟩
      (by decide) (by decide)⟩

/-- C5: a price or quantity string that fails to parse is replaced by zero
and never fails the message: a pair with an unparsable quantity behaves
exactly as if the pair were absent (quantity 0, so the level is dropped),
and a pair with an unparsable price behaves exactly as if its price string
were "0", so a positive quantity is stored at price 0. The four conjuncts
cover both fields on both sides, at any position in the update. -/
theorem c5_parse_error_substitution (now : ℕ) (s : OrderbookSnapshot)
    (pre post : List (String × String)) (ps qs : String) :
    (∀ U : DepthUpdate, U.bids = pre ++ (ps, qs) :: post →
      parseDecimal qs = none →
      process_snapshot now s U =
        process_snapshot now s ⟨U.lastUpdateId, pre ++ post, U.asks⟩) ∧
    (∀ U : DepthUpdate, U.bids = pre ++ (ps, qs) :: post →
      parseDecimal ps = none →
      process_snapshot now s U =
        process_snapshot now s
          ⟨U.lastUpdateId, pre ++ ("0", qs) :: post, U.asks⟩) ∧
    (∀ U : DepthUpdate, U.asks = pre ++ (ps, qs) :: post →
      parseDecimal qs = none →
      process_snapshot now s U =
        process_snapshot now s ⟨U.lastUpdateId, U.bids, pre ++ post⟩) ∧
    (∀ U : DepthUpdate, U.asks = pre ++ (ps, qs) :: post →
      parseDecimal ps = none →
      process_snapshot now s U =
        process_snapshot now s
          ⟨U.lastUpdateId, U.bids, pre ++ ("0", qs) :: post⟩) := by
  have hdrop : ∀ qs' : String, parseDecimal qs' = none →
      ∀ (l1 l2 : List (String × String)) (ps' : String),
      buildSide (l1 ++ (ps', qs') :: l2) = buildSide (l1 ++ l2) := by
    intro qs' hq l1 l2 ps'
    have hq0 : parseF64 qs' = 0 := by simp [parseF64, hq]
    have hstep : ∀ m, stepIns m (ps', qs') = m := by
      intro m; simp [stepIns, hq0]
    simp [buildSide, List.foldl_append, List.foldl_cons, hstep]
  have hzero : ∀ ps' : String, parseDecimal ps' = none →
      ∀ (l1 l2 : List (String × String)) (qs' : String),
      buildSide (l1 ++ (ps', qs') :: l2) =
        buildSide (l1 ++ ("0", qs') :: l2) := by
    intro ps' hp l1 l2 qs'
    have hp0 : parseF64 ps' = 0 := by simp [parseF64, hp]
    have h0 : parseF64 "0" = 0 := by decide
    have hstep : ∀ m, stepIns m (ps', qs') = stepIns m ("0", qs') := by
      intro m; simp [stepIns, hp0, h0]
    simp [buildSide, List.foldl_append, List.foldl_cons, hstep]
  refine ⟨?_, ?_, ?_, ?_⟩
  · intro U hU hq
    show (⟨now, buildSide U.bids, buildSide U.asks⟩ : OrderbookSnapshot) =
      ⟨now, buildSide (pre ++ post), buildSide U.asks⟩
    rw [hU, hdrop qs hq pre post ps]
  · intro U hU hp
    show (⟨now, buildSide U.bids, buildSide U.asks⟩ : OrderbookSnapshot) =
      ⟨now, buildSide (pre ++ ("0", qs) :: post), buildSide U.asks⟩
    rw [hU, hzero ps hp pre post qs]
  · intro U hU hq
    show (⟨now, buildSide U.bids, buildSide U.asks⟩ : OrderbookSnapshot) =
      ⟨now, buildSide U.bids, buildSide (pre ++ post)⟩
    rw [hU, hdrop qs hq pre post ps]
  · intro U hU hp
    show (⟨now, buildSide U.bids, buildSide U.asks⟩ : OrderbookSnapshot) =
      ⟨now, buildSide U.bids, buildSide (pre ++ ("0", qs) :: post)⟩
    rw [hU, hzero ps hp pre post qs]

/-- C5 witness: the spec's concrete scenario — the unparsable price string
"abc" with positive quantity 1.5 is treated exactly as price 0. -/
theorem c5_witness :
    parseDecimal "abc" = none ∧
    process_snapshot 0 (newSnapshot 0)
        ⟨none, [("abc", "1.5"), ("2", "3")], []⟩ =
      process_snapshot 0 (newSnapshot 0)
        ⟨none, [("0", "1.5"), ("2", "3")], []⟩ :=
  ⟨by decide,
    (c5_parse_error_substitution 0 (newSnapshot 0) [] [("2", "3")] "abc"
      "1.5").2.1 ⟨none, [("abc", "1.5"), ("2", "3")], []⟩ rfl (by decide)⟩

/-- C6: a JSON object message lacking the `bids` field (or the `asks`
field) fails decode entirely, and the receive-loop step on such a message
leaves the order-book state exactly unchanged — no partial application. -/
theorem c6_missing_field_no_mutation (now : ℕ) (s : OrderbookSnapshot)
    (fields : List (String × Json))
    (h : getField fields "bids" = none ∨ getField fields "asks" = none) :
    decodeDepthUpdate (Json.obj fields) = none ∧
    handleMessage now s (Json.obj fields) = s := by
  have hd : decodeDepthUpdate (Json.obj fields) = none := by
    simp only [decodeDepthUpdate]
    rcases h with h | h
    · rw [h]
      cases decodeOptU64 (getField fields "lastUpdateId") <;> simp
    · rw [h]
      cases decodeOptU64 (getField fields "lastUpdateId") with
      | none => simp
      | some i =>
        cases (getField fields "bids").bind decodeSide <;> simp
  refine ⟨hd, ?_⟩
  simp [handleMessage, hd]

/-- C6 witness: the empty JSON object has no `bids` field, fails decode,
and leaves a fresh snapshot unchanged. -/
theorem c6_witness :
    getField ([] : List (String × Json)) "bids" = none ∧
    decodeDepthUpdate (Json.obj []) = none ∧
    handleMessage 0 (newSnapshot 0) (Json.obj []) = newSnapshot 0 :=
  ⟨rfl,
    (c6_missing_field_no_mutation 0 (newSnapshot 0) [] (Or.inl rfl)).1,
    (c6_missing_field_no_mutation 0 (newSnapshot 0) [] (Or.inl rfl)).2⟩

end Binance
